import Mathlib

/-!
Verification of the bridge-commitment core of fuel-infrastructure/cometbft.

Shallow embedding of `rpc/core/bridge_commitments.go`,
`rpc/core/types/responses_commitments.go` and the hex proof transcoder
(`HexMerkleProof`).  Bytes are modelled as `List Nat` (each entry < 256 where
the source guarantees it), `uint64` values as `Nat` with explicit `% 2 ^ 64`
where Go wraps, `int64` values as `Int`.  Fallible Go functions returning
`error` are modelled with `Except BridgeError`.  A Go runtime panic on
out-of-range slice indexing is modelled with the distinguished error
`BridgeError.indexPanic`.

The `crypto/merkle` package and `types.NewResults` are code of this
repository that is not under the provided sources; they are modelled from
the specification (see the doc comments of `splitPoint`,
`hashFromByteSlices`, `computeAunts`, `proofsFromByteSlices`).
-/

/-- Errors returned by the bridge-commitment core.  Each constructor stands
for one distinct `fmt.Errorf` message of the source (arguments kept where the
message embeds them); `indexPanic` models a Go runtime panic on slice
indexing, which is not a returned error but aborts the request. -/
inductive BridgeError where
  | firstBlockZero
  | invertedRange
  | emptyRange
  | rangeTooLarge
  | rangeBeyondChainHeight (e : Nat) (chainHeight : Int)
  | heightOutsideRange (height start e : Nat)
  | blockNotFound (height : Nat)
  | txIndexOutOfRange (txIndex : Int)
  | hexDecodeOdd
  | padTooLong (l length : Nat)
  | storeFailure
  | indexPanic
deriving DecidableEq

/-- A block as this core sees it: only `Header.LastResultsHash` is read. -/
structure Block where
  lastResultsHash : List Nat
deriving DecidableEq

/-- The collaborators of `Environment` that the bridge-commitment code
reads: `BlockStore.Height()`, `BlockStore.LoadBlock(h)` (`none` models the
`nil` return), and `StateStore.LoadFinalizeBlockResponse(h)` whose payload is
the list of transaction results, each represented by its deterministic
encoding (the non-deterministic fields are stripped by `types.NewResults`,
which is outside the provided sources; only the resulting byte buffers
matter here). -/
structure Environment where
  blockStoreHeight : Int
  loadBlock : Nat → Option Block
  loadFinalizeBlockResponse : Int → Except BridgeError (List (List Nat))

/-- `BridgeCommitmentLeaf` of `rpc/core/types/responses_commitments.go`. -/
structure BridgeCommitmentLeaf where
  Height : Nat
  LastResultsHash : List Nat
deriving DecidableEq

/-- `merkle.Proof`: total leaf count, index of the proven leaf, its leaf
hash, and the aunt hashes ordered from the leaf's sibling upward. -/
structure MerkleProof where
  Total : Int
  Index : Int
  LeafHash : List Nat
  Aunts : List (List Nat)
deriving DecidableEq

/-- `HexMerkleProof` of the proof transcoder: structurally identical to
`merkle.Proof` (`bytes.HexBytes` is `[]byte` in memory). -/
structure HexMerkleProof where
  Total : Int
  Index : Int
  LeafHash : List Nat
  Aunts : List (List Nat)
deriving DecidableEq

/-- `ResultBridgeCommitmentInclusionProof` of
`rpc/core/types/responses_commitments.go`.  The Go struct's zero value of a
field that a struct literal leaves unset is modelled as `none`. -/
structure ResultBridgeCommitmentInclusionProof where
  BridgeCommitmentMerkleProof : MerkleProof
  LastResultsMerkleProof : Option MerkleProof
  bridgeCommitmentLeaf : Option BridgeCommitmentLeaf
  TxResultMarshalled : Option (List Nat)
deriving DecidableEq

/-- `BridgeCommitmentBlocksLimit`. -/
def bridgeCommitmentBlocksLimit : Nat := 1000

/-- Go's `uint64(i)` conversion of an `int64`: reduction modulo `2 ^ 64`. -/
def u64OfInt (i : Int) : Nat := (i % (2 ^ 64 : Int)).toNat

/-- The hex digits of `n`, most significant first, as produced by
`strconv.FormatUint(n, 16)` (so `[0]` for `n = 0`, no leading zero
otherwise).  The division loop is given the explicit fuel `n + 1`, which is
always sufficient. -/
def hexDigitsAux : Nat → Nat → List Nat
  | 0, _ => []
  | fuel + 1, n => if n < 16 then [n] else hexDigitsAux fuel (n / 16) ++ [n % 16]

/-- `strconv.FormatUint(n, 16)`, as the list of digit values. -/
def hexDigits (n : Nat) : List Nat := hexDigitsAux (n + 1) n

/-- The even-length padding step of `to32PaddedHexBytes`: a leading `"0"` is
prepended when the hex representation has odd length. -/
def evenHexDigits (ds : List Nat) : List Nat :=
  if ds.length % 2 = 1 then 0 :: ds else ds

/-- `hex.DecodeString` on a list of digit values: adjacent digit pairs
become one byte; an odd-length input is an error (unreachable in the source
because of the even-length padding). -/
def hexDecode : List Nat → Except BridgeError (List Nat)
  | [] => .ok []
  | [_] => .error .hexDecodeOdd
  | d1 :: d2 :: rest => (hexDecode rest).map (fun bs => (16 * d1 + d2) :: bs)

/-- `padBytes`: left-pad with zero bytes to the given length; error if the
input is already longer. -/
def padBytes (byt : List Nat) (length : Nat) : Except BridgeError (List Nat) :=
  if byt.length > length then .error (.padTooLong byt.length length)
  else if byt.length = length then .ok byt
  else .ok (List.replicate (length - byt.length) 0 ++ byt)

/-- `to32PaddedHexBytes`: hex representation of `number`, padded to even
length, decoded to bytes, then left-padded to 32 bytes. -/
def to32PaddedHexBytes (number : Nat) : Except BridgeError (List Nat) := do
  let hexBytes ← hexDecode (evenHexDigits (hexDigits number))
  padBytes hexBytes 32

/-- `encodeBridgeCommitment`: each leaf becomes the 32-byte padded height
followed by the leaf's `LastResultsHash`, in order; the first encoding error
is propagated. -/
def encodeBridgeCommitment : List BridgeCommitmentLeaf → Except BridgeError (List (List Nat))
  | [] => .ok []
  | leaf :: rest => do
      let paddedHeight ← to32PaddedHexBytes leaf.Height
      let encodedRest ← encodeBridgeCommitment rest
      pure ((paddedHeight ++ leaf.LastResultsHash) :: encodedRest)

/-- `validateBridgeCommitmentRange`: the five checks of the source, in
source order; the chain-height bound uses Go's `uint64(Height()) + 1`
wrap-around arithmetic. -/
def validateBridgeCommitmentRange (env : Environment) (start e : Nat) :
    Except BridgeError Unit :=
  if start = 0 then .error .firstBlockZero
  else if start > e then .error .invertedRange
  else
    let heightsRange := e - start
    if heightsRange = 0 then .error .emptyRange
    else if heightsRange > bridgeCommitmentBlocksLimit then .error .rangeTooLarge
    else if e > (u64OfInt env.blockStoreHeight + 1) % 2 ^ 64 then
      .error (.rangeBeyondChainHeight e env.blockStoreHeight)
    else .ok ()

/-- `validateBridgeCommitmentInclusionProofRequest`: range validation first,
then the end-exclusive height-in-range check. -/
def validateBridgeCommitmentInclusionProofRequest (env : Environment)
    (height start e : Nat) : Except BridgeError Unit := do
  validateBridgeCommitmentRange env start e
  if height < start ∨ height ≥ e then .error (.heightOutsideRange height start e)
  else pure ()

/-- The loop body of `fetchBridgeCommitmentLeaves`, iterating `count` more
heights starting at `h`: the first missing block aborts with its height. -/
def fetchBridgeCommitmentLeavesAux (env : Environment) : Nat → Nat →
    Except BridgeError (List BridgeCommitmentLeaf)
  | _, 0 => .ok []
  | h, count + 1 =>
    match env.loadBlock h with
    | none => .error (.blockNotFound h)
    | some currentBlock => do
        let rest ← fetchBridgeCommitmentLeavesAux env (h + 1) count
        pure ({ Height := h, LastResultsHash := currentBlock.lastResultsHash } :: rest)

/-- `fetchBridgeCommitmentLeaves` over the end-exclusive range `[start, e)`. -/
def fetchBridgeCommitmentLeaves (env : Environment) (start e : Nat) :
    Except BridgeError (List BridgeCommitmentLeaf) :=
  fetchBridgeCommitmentLeavesAux env start (e - start)

/-- Modelled from the spec: `splitPoint(n)` of the `crypto/merkle` package
(not under the provided sources), the largest power of two strictly below
`n` for `n ≥ 2`, computed by doubling with fuel. -/
def splitPointAux (n : Nat) : Nat → Nat → Nat
  | 0, k => k
  | fuel + 1, k => if 2 * k < n then splitPointAux n fuel (2 * k) else k

/-- Modelled from the spec: the split point used by the Merkle tree shape
rule. -/
def splitPoint (n : Nat) : Nat := splitPointAux n n 1

/-- Modelled from the spec: `merkle.HashFromByteSlices` (not under the
provided sources) over an abstract 256-bit hash `H`; a leaf hashes as
`H(0x00 ‖ buf)`, an inner node as `H(0x01 ‖ left ‖ right)`, splitting at
`splitPoint`.  The fuel is the number of leaves, which bounds the recursion
depth. -/
def hashFromByteSlicesAux (H : List Nat → List Nat) : Nat → List (List Nat) → List Nat
  | 0, _ => H []
  | fuel + 1, items =>
    match items with
    | [] => H []
    | [x] => H (0 :: x)
    | _ =>
      let k := splitPoint items.length
      H (1 :: (hashFromByteSlicesAux H fuel (items.take k) ++
               hashFromByteSlicesAux H fuel (items.drop k)))

/-- Modelled from the spec: the Merkle root of a sequence of byte buffers. -/
def hashFromByteSlices (H : List Nat → List Nat) (items : List (List Nat)) : List Nat :=
  hashFromByteSlicesAux H items.length items

/-- Modelled from the spec: the aunt hashes of the leaf at `idx`, collected
leaf-to-root along the recursive split structure. -/
def computeAuntsAux (H : List Nat → List Nat) : Nat → List (List Nat) → Nat →
    List (List Nat)
  | 0, _, _ => []
  | fuel + 1, items, idx =>
    if items.length ≤ 1 then []
    else
      let k := splitPoint items.length
      if idx < k then
        computeAuntsAux H fuel (items.take k) idx ++
          [hashFromByteSlices H (items.drop k)]
      else
        computeAuntsAux H fuel (items.drop k) (idx - k) ++
          [hashFromByteSlices H (items.take k)]

/-- Modelled from the spec: the aunts of one leaf. -/
def computeAunts (H : List Nat → List Nat) (items : List (List Nat)) (idx : Nat) :
    List (List Nat) :=
  computeAuntsAux H items.length items idx

/-- Modelled from the spec: `merkle.ProofsFromByteSlices` (not under the
provided sources); the proof at position `i` proves the `i`-th buffer. -/
def proofsFromByteSlices (H : List Nat → List Nat) (items : List (List Nat)) :
    List MerkleProof :=
  (List.range items.length).map (fun (i : Nat) =>
    { Total := (items.length : Int)
      Index := (i : Int)
      LeafHash := H (0 :: items.getD i [])
      Aunts := computeAunts H items i })

/-- Go slice indexing `l[i]` with an `int64` index: a Go runtime panic on an
out-of-range index is modelled as the `indexPanic` error. -/
def sliceIndex {α : Type} (l : List α) (i : Int) : Except BridgeError α :=
  if h : 0 ≤ i ∧ i.toNat < l.length then .ok (l.get ⟨i.toNat, h.2⟩)
  else .error .indexPanic

/-- `BridgeCommitment`: validate the range, fetch and encode the leaves,
return the Merkle root. -/
def BridgeCommitment (H : List Nat → List Nat) (env : Environment)
    (start e : Nat) : Except BridgeError (List Nat) := do
  validateBridgeCommitmentRange env start e
  let leaves ← fetchBridgeCommitmentLeaves env start e
  let encodedLeaves ← encodeBridgeCommitment leaves
  pure (hashFromByteSlices H encodedLeaves)

/-- `BridgeCommitmentInclusionProof`: validate, fetch and encode the leaves,
take the bridge-level proof at `height - leaves[0].Height`, load the prior
block's transaction results, and either return only the bridge-level proof
(empty result set and `txIndex == 0`), reject a too-high `txIndex`, or add
the results-level proof at `txIndex`.  The struct literal of the source sets
only the two proof fields, so `bridgeCommitmentLeaf` and
`TxResultMarshalled` are always `none`. -/
def BridgeCommitmentInclusionProof (H : List Nat → List Nat) (env : Environment)
    (height txIndex : Int) (start e : Nat) :
    Except BridgeError ResultBridgeCommitmentInclusionProof := do
  validateBridgeCommitmentInclusionProofRequest env (u64OfInt height) start e
  let leaves ← fetchBridgeCommitmentLeaves env start e
  let encodedLeaves ← encodeBridgeCommitment leaves
  let proofs := proofsFromByteSlices H encodedLeaves
  let leaf0 ← sliceIndex leaves 0
  let bcProof ← sliceIndex proofs (height - (leaf0.Height : Int))
  let txResults ← env.loadFinalizeBlockResponse (height - 1)
  if txResults.length = 0 ∧ txIndex = 0 then
    pure { BridgeCommitmentMerkleProof := bcProof
           LastResultsMerkleProof := none
           bridgeCommitmentLeaf := none
           TxResultMarshalled := none }
  else if txIndex ≥ (txResults.length : Int) then
    .error (.txIndexOutOfRange txIndex)
  else do
    let txMerkleProof ← sliceIndex (proofsFromByteSlices H txResults) txIndex
    pure { BridgeCommitmentMerkleProof := bcProof
           LastResultsMerkleProof := some txMerkleProof
           bridgeCommitmentLeaf := none
           TxResultMarshalled := none }

/-- `NewHexMerkleProof`: field-by-field copy; the aunt list is rebuilt by
the source's append loop. -/
def NewHexMerkleProof (proof : MerkleProof) : HexMerkleProof :=
  { Total := proof.Total
    Index := proof.Index
    LeafHash := proof.LeafHash
    Aunts := proof.Aunts.foldl (fun acc aunt => acc ++ [aunt]) [] }

/-- `ToMerkleProof`: the inverse field-by-field copy, with the same append
loop. -/
def ToMerkleProof (proof : HexMerkleProof) : MerkleProof :=
  { Total := proof.Total
    Index := proof.Index
    LeafHash := proof.LeafHash
    Aunts := proof.Aunts.foldl (fun acc aunt => acc ++ [aunt]) [] }

/-- Spec-side definition (refinement target for the leaf codec): the 32-byte
big-endian encoding of `n`, leading zero bytes as padding. -/
def pad32 (n : Nat) : List Nat :=
  (List.range 32).map (fun i => n / 256 ^ (31 - i) % 256)

/-- The big-endian value of a digit list in base `b`. -/
def beVal (b : Nat) (ds : List Nat) : Nat :=
  ds.foldl (fun acc d => acc * b + d) 0

instance {ε α : Type} [DecidableEq ε] [DecidableEq α] : DecidableEq (Except ε α) :=
  fun x y =>
  match x, y with
  | .ok a, .ok b => decidable_of_iff (a = b) (by simp)
  | .ok _, .error _ => .isFalse (by simp)
  | .error _, .ok _ => .isFalse (by simp)
  | .error e1, .error e2 => decidable_of_iff (e1 = e2) (by simp)

theorem chainBound_eq (env : Environment) (h0 : 0 ≤ env.blockStoreHeight)
    (h1 : env.blockStoreHeight < 2 ^ 63) :
    (u64OfInt env.blockStoreHeight + 1) % 2 ^ 64 = env.blockStoreHeight.toNat + 1 := by
  have h63 : ((2 : Int) ^ 63 : Int) = 9223372036854775808 := by norm_num
  rw [h63] at h1
  have hlt : env.blockStoreHeight < (2 : Int) ^ 64 := by
    have : ((2 : Int) ^ 64 : Int) = 18446744073709551616 := by norm_num
    omega
  unfold u64OfInt
  rw [Int.emod_eq_of_lt h0 hlt]
  have : env.blockStoreHeight.toNat + 1 < 2 ^ 64 := by
    have : (2 ^ 64 : Nat) = 18446744073709551616 := by norm_num
    omega
  exact Nat.mod_eq_of_lt this

/-- C1: `validateBridgeCommitmentRange` succeeds iff all five bounds hold. -/
theorem validateBridgeCommitmentRange_correct (env : Environment) (start e : Nat)
    (h0 : 0 ≤ env.blockStoreHeight) (h1 : env.blockStoreHeight < 2 ^ 63) :
    (validateBridgeCommitmentRange env start e = .ok () ↔
      (0 < start ∧ start ≤ e ∧ 1 ≤ e - start ∧ e - start ≤ 1000 ∧
        (e : Int) ≤ env.blockStoreHeight + 1)) ∧
    (start = 0 → validateBridgeCommitmentRange env start e = .error .firstBlockZero) ∧
    (start ≠ 0 → e < start →
      validateBridgeCommitmentRange env start e = .error .invertedRange) ∧
    (start ≠ 0 → start ≤ e → e - start = 0 →
      validateBridgeCommitmentRange env start e = .error .emptyRange) ∧
    (start ≠ 0 → start < e → 1000 < e - start →
      validateBridgeCommitmentRange env start e = .error .rangeTooLarge) ∧
    (start ≠ 0 → start < e → e - start ≤ 1000 → env.blockStoreHeight + 1 < (e : Int) →
      validateBridgeCommitmentRange env start e =
        .error (.rangeBeyondChainHeight e env.blockStoreHeight)) := by
  have hb := chainBound_eq env h0 h1
  refine ⟨?_, ?_, ?_, ?_, ?_, ?_⟩
  · simp only [validateBridgeCommitmentRange, bridgeCommitmentBlocksLimit, hb]
    split_ifs with hA hB hC hD hE <;> simp <;> omega
  · intro hA
    simp only [validateBridgeCommitmentRange, bridgeCommitmentBlocksLimit, hb]
    rw [if_pos hA]
  · intro hA hB
    simp only [validateBridgeCommitmentRange, bridgeCommitmentBlocksLimit, hb]
    rw [if_neg hA, if_pos (show start > e by omega)]
  · intro hA hB hC
    simp only [validateBridgeCommitmentRange, bridgeCommitmentBlocksLimit, hb]
    rw [if_neg hA, if_neg (show ¬ start > e by omega), if_pos hC]
  · intro hA hB hC
    simp only [validateBridgeCommitmentRange, bridgeCommitmentBlocksLimit, hb]
    rw [if_neg hA, if_neg (show ¬ start > e by omega),
      if_neg (show ¬ e - start = 0 by omega), if_pos hC]
  · intro hA hB hC hD
    simp only [validateBridgeCommitmentRange, bridgeCommitmentBlocksLimit, hb]
    rw [if_neg hA, if_neg (show ¬ start > e by omega),
      if_neg (show ¬ e - start = 0 by omega), if_neg (show ¬ e - start > 1000 by omega),
      if_pos (show e > env.blockStoreHeight.toNat + 1 by omega)]

/-- C1 witness: with chain height 100, `(5, 101)` validates and `(5, 102)`
fails the chain-height bound. -/
theorem validateBridgeCommitmentRange_correct_witness :
    validateBridgeCommitmentRange
      { blockStoreHeight := 100, loadBlock := fun _ => none,
        loadFinalizeBlockResponse := fun _ => .error .storeFailure } 5 101 = .ok () ∧
    validateBridgeCommitmentRange
      { blockStoreHeight := 100, loadBlock := fun _ => none,
        loadFinalizeBlockResponse := fun _ => .error .storeFailure } 5 102 =
      .error (.rangeBeyondChainHeight 102 100) := by
  constructor
  · exact (validateBridgeCommitmentRange_correct _ 5 101 (by decide) (by decide)).1.mpr
      (by refine ⟨by decide, by decide, by decide, by decide, by decide⟩)
  · exact (validateBridgeCommitmentRange_correct _ 5 102 (by decide) (by decide)).2.2.2.2.2
      (by decide) (by decide) (by decide) (by decide)

theorem beVal_nil (b : Nat) : beVal b [] = 0 := rfl

theorem beVal_foldl_shift (b : Nat) (ds : List Nat) : ∀ a : Nat,
    ds.foldl (fun acc d => acc * b + d) a = a * b ^ ds.length + beVal b ds := by
  induction ds with
  | nil => intro a; simp [beVal]
  | cons d ds ih =>
    intro a
    have h1 : (d :: ds).foldl (fun acc d => acc * b + d) a =
        ds.foldl (fun acc d => acc * b + d) (a * b + d) := rfl
    have h2 : beVal b (d :: ds) = ds.foldl (fun acc d => acc * b + d) d := by
      simp [beVal]
    rw [h1, ih, h2, ih d, List.length_cons]
    ring

theorem beVal_cons (b d : Nat) (ds : List Nat) :
    beVal b (d :: ds) = d * b ^ ds.length + beVal b ds := by
  have h2 : beVal b (d :: ds) = ds.foldl (fun acc d => acc * b + d) d := by
    simp [beVal]
  rw [h2, beVal_foldl_shift]

theorem beVal_append (b : Nat) (l1 l2 : List Nat) :
    beVal b (l1 ++ l2) = beVal b l1 * b ^ l2.length + beVal b l2 := by
  unfold beVal
  rw [List.foldl_append]
  exact beVal_foldl_shift b l2 _

theorem beVal_single (b x : Nat) : beVal b [x] = x := by
  rw [beVal_cons, beVal_nil]; simp

theorem beVal_lt (b : Nat) (ds : List Nat) (h : ∀ d ∈ ds, d < b) :
    beVal b ds < b ^ ds.length := by
  induction ds with
  | nil => simp [beVal]
  | cons d ds ih =>
    have hd : d + 1 ≤ b := h d (by simp)
    have hrec : beVal b ds < b ^ ds.length := ih (fun x hx => h x (by simp [hx]))
    rw [beVal_cons]
    calc d * b ^ ds.length + beVal b ds < d * b ^ ds.length + b ^ ds.length := by omega
      _ = (d + 1) * b ^ ds.length := by ring
      _ ≤ b * b ^ ds.length := Nat.mul_le_mul_right _ hd
      _ = b ^ (d :: ds).length := by rw [List.length_cons]; ring

theorem beVal_replicate_zero (b k : Nat) (l : List Nat) :
    beVal b (List.replicate k 0 ++ l) = beVal b l := by
  induction k with
  | zero => simp
  | succ k ih =>
    have : List.replicate (k + 1) 0 ++ l = 0 :: (List.replicate k 0 ++ l) := by
      simp [List.replicate_succ]
    rw [this, beVal_cons, ih]
    simp

theorem be_unique (b : Nat) : ∀ l1 l2 : List Nat, l1.length = l2.length →
    (∀ d ∈ l1, d < b) → (∀ d ∈ l2, d < b) → beVal b l1 = beVal b l2 → l1 = l2 := by
  intro l1
  induction l1 with
  | nil => intro l2 hlen _ _ _; cases l2 with
    | nil => rfl
    | cons d t => simp at hlen
  | cons d1 t1 ih =>
    intro l2 hlen hb1 hb2 hval
    cases l2 with
    | nil => simp at hlen
    | cons d2 t2 =>
      have hlt : t1.length = t2.length := by simpa using hlen
      have hv1 : beVal b t1 < b ^ t1.length := beVal_lt b t1 (fun x hx => hb1 x (by simp [hx]))
      have hv2 : beVal b t2 < b ^ t2.length := beVal_lt b t2 (fun x hx => hb2 x (by simp [hx]))
      rw [beVal_cons, beVal_cons, hlt] at hval
      have hpos : 0 < b ^ t2.length := by
        rcases Nat.eq_zero_or_pos b with hb | hb
        · subst hb; rw [hlt] at hv1; omega
        · exact Nat.pos_pow_of_pos _ hb
      have hd : d1 = d2 := by
        have e1 : (beVal b t1 + d1 * b ^ t2.length) / b ^ t2.length = d1 := by
          rw [Nat.add_mul_div_right _ _ hpos, Nat.div_eq_of_lt (by rw [hlt] at hv1; exact hv1)]
          omega
        have e2 : (beVal b t2 + d2 * b ^ t2.length) / b ^ t2.length = d2 := by
          rw [Nat.add_mul_div_right _ _ hpos, Nat.div_eq_of_lt hv2]
          omega
        rw [← e1, ← e2]
        congr 1
        omega
      subst hd
      have ht : beVal b t1 = beVal b t2 := by omega
      rw [ih t2 hlt (fun x hx => hb1 x (by simp [hx])) (fun x hx => hb2 x (by simp [hx])) ht]

theorem hexDigitsAux_spec : ∀ fuel n : Nat, n < fuel →
    beVal 16 (hexDigitsAux fuel n) = n ∧ (∀ d ∈ hexDigitsAux fuel n, d < 16) ∧
      hexDigitsAux fuel n ≠ [] := by
  intro fuel
  induction fuel with
  | zero => intro n hn; omega
  | succ fuel ih =>
    intro n hn
    unfold hexDigitsAux
    split_ifs with hs
    · refine ⟨beVal_single 16 n, ?_, by simp⟩
      intro d hd
      simp at hd
      omega
    · have hdiv : n / 16 < fuel := by
        have h1 : n / 16 < n := Nat.div_lt_self (by omega) (by omega)
        omega
      obtain ⟨hval, hmem, hne⟩ := ih (n / 16) hdiv
      refine ⟨?_, ?_, by simp⟩
      · rw [beVal_append, hval, beVal_single]
        simp
        omega
      · intro d hd
        rw [List.mem_append] at hd
        rcases hd with hd | hd
        · exact hmem d hd
        · simp at hd
          omega

theorem hexDigits_spec (n : Nat) :
    beVal 16 (hexDigits n) = n ∧ (∀ d ∈ hexDigits n, d < 16) ∧ hexDigits n ≠ [] :=
  hexDigitsAux_spec (n + 1) n (by omega)

theorem hexDigitsAux_length : ∀ fuel n k : Nat, n < fuel → 1 ≤ k → n < 16 ^ k →
    (hexDigitsAux fuel n).length ≤ k := by
  intro fuel
  induction fuel with
  | zero => intro n k hn; omega
  | succ fuel ih =>
    intro n k hn hk hnk
    unfold hexDigitsAux
    split_ifs with hs
    · simpa using hk
    · have hdiv : n / 16 < fuel := by
        have h1 : n / 16 < n := Nat.div_lt_self (by omega) (by omega)
        omega
    -- n ≥ 16 forces k ≥ 2
      rcases k with _ | k
      · omega
      rcases k with _ | k
      · have : (16 : Nat) ^ 1 = 16 := by norm_num
        omega
      have hk2 : n / 16 < 16 ^ (k + 1) := by
        refine Nat.div_lt_of_lt_mul ?_
        calc n < 16 ^ (k + 2) := hnk
          _ = 16 * 16 ^ (k + 1) := by ring
      have := ih (n / 16) (k + 1) hdiv (by omega) hk2
      simp only [List.length_append, List.length_cons, List.length_nil]
      omega

theorem hexDigits_length (n : Nat) (h : n < 2 ^ 64) : (hexDigits n).length ≤ 16 := by
  refine hexDigitsAux_length (n + 1) n 16 (by omega) (by omega) ?_
  have : (16 : Nat) ^ 16 = 2 ^ 64 := by norm_num
  omega

theorem evenHexDigits_spec (ds : List Nat) :
    (evenHexDigits ds).length % 2 = 0 ∧ beVal 16 (evenHexDigits ds) = beVal 16 ds ∧
      (evenHexDigits ds).length ≤ ds.length + 1 := by
  unfold evenHexDigits
  split_ifs with h
  · refine ⟨by simp; omega, ?_, by simp⟩
    rw [beVal_cons]
    simp
  · exact ⟨by omega, rfl, by omega⟩

theorem evenHexDigits_mem (ds : List Nat) (h : ∀ d ∈ ds, d < 16) :
    ∀ d ∈ evenHexDigits ds, d < 16 := by
  unfold evenHexDigits
  split_ifs with hs
  · intro d hd
    rcases List.mem_cons.mp hd with hd | hd
    · omega
    · exact h d hd
  · exact h

theorem hexDecode_spec : ∀ ds : List Nat, ds.length % 2 = 0 → (∀ d ∈ ds, d < 16) →
    ∃ bs, hexDecode ds = .ok bs ∧ 2 * bs.length = ds.length ∧
      (∀ x ∈ bs, x < 256) ∧ beVal 256 bs = beVal 16 ds := by
  intro ds
  induction ds using hexDecode.induct with
  | case1 =>
    intro _ _
    exact ⟨[], rfl, rfl, by simp, rfl⟩
  | case2 d =>
    intro hlen
    simp at hlen
  | case3 d1 d2 rest ih =>
    intro hlen hmem
    have hrl : rest.length % 2 = 0 := by
      simp only [List.length_cons] at hlen
      omega
    obtain ⟨bs, hok, hblen, hbmem, hbval⟩ :=
      ih hrl (fun d hd => hmem d (by simp [hd]))
    refine ⟨(16 * d1 + d2) :: bs, ?_, ?_, ?_, ?_⟩
    · unfold hexDecode
      rw [hok]
      rfl
    · simp only [List.length_cons]
      omega
    · intro x hx
      rcases List.mem_cons.mp hx with hx | hx
      · have h1 : d1 < 16 := hmem d1 (by simp)
        have h2 : d2 < 16 := hmem d2 (by simp)
        omega
      · exact hbmem x hx
    · rw [beVal_cons, beVal_cons, beVal_cons, hbval]
      have hlen2 : rest.length = 2 * bs.length := by omega
      have hpow : (256 : Nat) ^ bs.length = 16 ^ (2 * bs.length) := by
        rw [show (256 : Nat) = 16 ^ 2 from by norm_num, ← pow_mul]
      simp only [List.length_cons, hlen2, hpow]
      ring

theorem padBytes_ok (bs : List Nat) (h : bs.length ≤ 32) :
    padBytes bs 32 = .ok (List.replicate (32 - bs.length) 0 ++ bs) := by
  unfold padBytes
  rw [if_neg (by omega)]
  split_ifs with h2
  · rw [h2]
    simp
  · rfl

theorem pad32_beVal_general (w n : Nat) :
    beVal 256 ((List.range w).map (fun i => n / 256 ^ (w - 1 - i) % 256)) = n % 256 ^ w := by
  induction w with
  | zero => simp [beVal, Nat.mod_one]
  | succ w ih =>
    rw [List.range_succ_eq_map, List.map_cons, List.map_map]
    have hf : ((fun i => n / 256 ^ (w + 1 - 1 - i) % 256) ∘ Nat.succ) =
        (fun i => n / 256 ^ (w - 1 - i) % 256) := by
      funext i
      show n / 256 ^ (w + 1 - 1 - (i + 1)) % 256 = n / 256 ^ (w - 1 - i) % 256
      have h2 : w + 1 - 1 - (i + 1) = w - 1 - i := by omega
      rw [h2]
    rw [hf, beVal_cons, ih]
    have hlen : ((List.range w).map (fun i => n / 256 ^ (w - 1 - i) % 256)).length = w := by
      simp
    rw [hlen]
    have : w + 1 - 1 - 0 = w := by omega
    rw [this, Nat.mod_pow_succ]
    ring

theorem pad32_spec (n : Nat) :
    (pad32 n).length = 32 ∧ (∀ x ∈ pad32 n, x < 256) ∧ beVal 256 (pad32 n) = n % 256 ^ 32 := by
  refine ⟨by simp [pad32], ?_, ?_⟩
  · intro x hx
    simp only [pad32, List.mem_map] at hx
    obtain ⟨i, _, hi⟩ := hx
    omega
  · have := pad32_beVal_general 32 n
    simpa [pad32] using this

/-- C2 core: the height-encoding step computes the 32-byte big-endian
encoding of any height below `2 ^ 64` and never fails. -/
theorem to32PaddedHexBytes_eq_pad32 (n : Nat) (h : n < 2 ^ 64) :
    to32PaddedHexBytes n = .ok (pad32 n) := by
  obtain ⟨hval, hmem, hne⟩ := hexDigits_spec n
  have hdlen : (hexDigits n).length ≤ 16 := hexDigits_length n h
  obtain ⟨helen, heval, hele⟩ := evenHexDigits_spec (hexDigits n)
  have hemem := evenHexDigits_mem (hexDigits n) hmem
  obtain ⟨bs, hok, hblen, hbmem, hbval⟩ := hexDecode_spec (evenHexDigits (hexDigits n)) helen hemem
  have hbs32 : bs.length ≤ 32 := by omega
  have hres : to32PaddedHexBytes n = .ok (List.replicate (32 - bs.length) 0 ++ bs) := by
    unfold to32PaddedHexBytes
    rw [hok]
    show padBytes bs 32 = _
    exact padBytes_ok bs hbs32
  rw [hres]
  congr 1
  obtain ⟨hplen, hpmem, hpval⟩ := pad32_spec n
  refine be_unique 256 _ _ ?_ ?_ hpmem ?_
  · simp [hplen]
    omega
  · intro d hd
    rcases List.mem_append.mp hd with hd | hd
    · have := List.eq_of_mem_replicate hd
      omega
    · exact hbmem d hd
  · rw [beVal_replicate_zero, hbval, heval, hval, hpval]
    have hbig : n < 256 ^ 32 := by
      have h1 : (256 : Nat) ^ 32 = 2 ^ 256 := by norm_num
      have h2 : (2 : Nat) ^ 64 < 2 ^ 256 := by norm_num
      omega
    rw [Nat.mod_eq_of_lt hbig]

theorem encodeBridgeCommitment_ok (leaves : List BridgeCommitmentLeaf)
    (hh : ∀ l ∈ leaves, l.Height < 2 ^ 64) :
    encodeBridgeCommitment leaves =
      .ok (leaves.map (fun l => pad32 l.Height ++ l.LastResultsHash)) := by
  induction leaves with
  | nil => rfl
  | cons leaf rest ih =>
    unfold encodeBridgeCommitment
    rw [to32PaddedHexBytes_eq_pad32 leaf.Height (hh leaf (by simp)),
      ih (fun l hl => hh l (by simp [hl]))]
    rfl

/-- C2: on leaves with 32-byte result hashes, `encodeBridgeCommitment`
produces exactly the 64-byte buffers `pad32(height) ‖ resultHash`, and the
height-encoding step `to32PaddedHexBytes` succeeds (never overflows) for
every height below `2 ^ 64`. -/
theorem encodeBridgeCommitment_abi_correct (leaves : List BridgeCommitmentLeaf)
    (hh : ∀ l ∈ leaves, l.Height < 2 ^ 64)
    (hlen : ∀ l ∈ leaves, l.LastResultsHash.length = 32) :
    (∀ n : Nat, n < 2 ^ 64 → to32PaddedHexBytes n = .ok (pad32 n)) ∧
    encodeBridgeCommitment leaves =
      .ok (leaves.map (fun l => pad32 l.Height ++ l.LastResultsHash)) ∧
    ∀ l ∈ leaves, (pad32 l.Height ++ l.LastResultsHash).length = 64 := by
  refine ⟨fun n hn => to32PaddedHexBytes_eq_pad32 n hn,
    encodeBridgeCommitment_ok leaves hh, ?_⟩
  intro l hl
  have h1 := (pad32_spec l.Height).1
  simp [List.length_append, h1, hlen l hl]

/-- C2 witness: the two concrete leaves of the spec scenario encode to
`pad32(100) ‖ H1` and `pad32(101) ‖ H2`. -/
theorem encodeBridgeCommitment_abi_correct_witness :
    encodeBridgeCommitment
      [{ Height := 100, LastResultsHash := List.replicate 32 1 },
       { Height := 101, LastResultsHash := List.replicate 32 2 }] =
      .ok [pad32 100 ++ List.replicate 32 1, pad32 101 ++ List.replicate 32 2] := by
  have h := encodeBridgeCommitment_abi_correct
    [{ Height := 100, LastResultsHash := List.replicate 32 1 },
     { Height := 101, LastResultsHash := List.replicate 32 2 }]
    (by decide) (by decide)
  simpa using h.2.1

/-- C3 counterexample: a leaf whose result hash has 31 bytes is encoded
without any error (there is no malformed-hash check in the source), and the
output is 63 bytes, not 64. -/
theorem encodeBridgeCommitment_hash_unchecked_cex :
    encodeBridgeCommitment [{ Height := 1, LastResultsHash := List.replicate 31 7 }] =
      .ok [pad32 1 ++ List.replicate 31 7] ∧
    (pad32 1 ++ List.replicate 31 7).length = 63 := by
  constructor
  · decide
  · decide

/-- C3 amended: `encodeBridgeCommitment` performs no check on the result
hash length; it succeeds for every leaf with a 64-bit height and returns
`pad32(height) ‖ resultHash`, of length `32 + |resultHash|` (so 64 bytes
exactly when the hash has 32 bytes). -/
theorem encodeBridgeCommitment_no_hash_check (leaves : List BridgeCommitmentLeaf)
    (hh : ∀ l ∈ leaves, l.Height < 2 ^ 64) :
    encodeBridgeCommitment leaves =
      .ok (leaves.map (fun l => pad32 l.Height ++ l.LastResultsHash)) ∧
    ∀ l ∈ leaves,
      (pad32 l.Height ++ l.LastResultsHash).length = 32 + l.LastResultsHash.length := by
  refine ⟨encodeBridgeCommitment_ok leaves hh, ?_⟩
  intro l hl
  have h1 := (pad32_spec l.Height).1
  simp [List.length_append, h1]

/-- C3 amended witness: a 5-byte hash still encodes successfully. -/
theorem encodeBridgeCommitment_no_hash_check_witness :
    encodeBridgeCommitment [{ Height := 2, LastResultsHash := List.replicate 5 9 }] =
      .ok [pad32 2 ++ List.replicate 5 9] := by
  have h := encodeBridgeCommitment_no_hash_check
    [{ Height := 2, LastResultsHash := List.replicate 5 9 }] (by decide)
  simpa using h.1

theorem fetchLeavesAux_ok (env : Environment) : ∀ count h leaves,
    fetchBridgeCommitmentLeavesAux env h count = .ok leaves →
    leaves.length = count ∧
      ∀ i (hi : i < leaves.length), (leaves.get ⟨i, hi⟩).Height = h + i := by
  intro count
  induction count with
  | zero =>
    intro h leaves hok
    unfold fetchBridgeCommitmentLeavesAux at hok
    cases hok
    exact ⟨rfl, by intro i hi; simp at hi⟩
  | succ count ih =>
    intro h leaves hok
    unfold fetchBridgeCommitmentLeavesAux at hok
    cases hblock : env.loadBlock h with
    | none => rw [hblock] at hok; cases hok
    | some b =>
      rw [hblock] at hok
      cases hrest : fetchBridgeCommitmentLeavesAux env (h + 1) count with
      | error err => rw [hrest] at hok; cases hok
      | ok rest =>
        rw [hrest] at hok
        cases hok
        obtain ⟨hlen, hget⟩ := ih (h + 1) rest hrest
        refine ⟨by simp [hlen], ?_⟩
        intro i hi
        cases i with
        | zero => simp
        | succ i =>
          simp only [List.get_cons_succ]
          have := hget i (by simp at hi; omega)
          rw [this]
          omega

theorem fetchLeavesAux_missing (env : Environment) : ∀ count h i0, i0 < count →
    env.loadBlock (h + i0) = none →
    (∀ j, j < i0 → (env.loadBlock (h + j)).isSome) →
    fetchBridgeCommitmentLeavesAux env h count = .error (.blockNotFound (h + i0)) := by
  intro count
  induction count with
  | zero => intro h i0 hlt; omega
  | succ count ih =>
    intro h i0 hlt hmiss hfirst
    unfold fetchBridgeCommitmentLeavesAux
    cases i0 with
    | zero =>
      simp only [Nat.add_zero] at hmiss
      rw [hmiss]
      rfl
    | succ i0 =>
      have hsome : (env.loadBlock h).isSome := by
        have := hfirst 0 (by omega)
        simpa using this
      cases hblock : env.loadBlock h with
      | none => rw [hblock] at hsome; simp at hsome
      | some b =>
        have hrec : fetchBridgeCommitmentLeavesAux env (h + 1) count =
            .error (.blockNotFound (h + 1 + i0)) := by
          refine ih (h + 1) i0 (by omega) ?_ ?_
          · rw [show h + 1 + i0 = h + (i0 + 1) from by omega]
            exact hmiss
          · intro j hj
            rw [show h + 1 + j = h + (j + 1) from by omega]
            exact hfirst (j + 1) (by omega)
        rw [hrec, show h + 1 + i0 = h + (i0 + 1) from by omega]
        rfl

/-- C7 amended: once the range has validated, the first missing block in
ascending order aborts `BridgeCommitment` with its `blockNotFound` error and
no root is produced. -/
theorem bridgeCommitment_first_missing_block (H : List Nat → List Nat)
    (env : Environment) (start e h0 : Nat)
    (hval : validateBridgeCommitmentRange env start e = .ok ())
    (h1 : start ≤ h0) (h2 : h0 < e)
    (hmiss : env.loadBlock h0 = none)
    (hfirst : ∀ h, start ≤ h → h < h0 → (env.loadBlock h).isSome) :
    BridgeCommitment H env start e = .error (.blockNotFound h0) := by
  have hfetch : fetchBridgeCommitmentLeaves env start e = .error (.blockNotFound h0) := by
    unfold fetchBridgeCommitmentLeaves
    have hkey := fetchLeavesAux_missing env (e - start) start (h0 - start) (by omega)
      (by rw [show start + (h0 - start) = h0 from by omega]; exact hmiss)
      (fun j hj => hfirst (start + j) (by omega) (by omega))
    rw [show start + (h0 - start) = h0 from by omega] at hkey
    exact hkey
  unfold BridgeCommitment
  rw [hval, hfetch]
  rfl

/-- C7 witness: chain height 10, block 1 present, block 2 missing; the range
`[1, 3)` validates and the result is `blockNotFound 2`. -/
theorem bridgeCommitment_first_missing_block_witness :
    BridgeCommitment (fun _ => [])
      { blockStoreHeight := 10,
        loadBlock := fun h => if h = 1 then some { lastResultsHash := [9] } else none,
        loadFinalizeBlockResponse := fun _ => .error .storeFailure } 1 3 =
      .error (.blockNotFound 2) := by
  refine bridgeCommitment_first_missing_block (fun _ => []) _ 1 3 2 (by decide)
    (by decide) (by decide) rfl ?_
  intro h hh1 hh2
  have hh : h = 1 := by omega
  subst hh
  rfl

/-- C7 counterexample: quantified over every range and block store, the
claim fails, because range validation precedes fetching: with chain height 0
and an empty store, height 1 of `[1, 2)` has no stored block yet the call
returns the range-validation error, not `blockNotFound 1`. -/
theorem bridgeCommitment_validation_first_cex :
    BridgeCommitment (fun _ => [])
      { blockStoreHeight := 0, loadBlock := fun _ => none,
        loadFinalizeBlockResponse := fun _ => .error .storeFailure } 1 2 =
      .error (.rangeBeyondChainHeight 2 0) ∧
    ({ blockStoreHeight := 0, loadBlock := fun _ => none,
       loadFinalizeBlockResponse := fun _ => .error .storeFailure } : Environment).loadBlock 1
      = none ∧
    BridgeError.rangeBeyondChainHeight 2 0 ≠ .blockNotFound 1 :=
  ⟨rfl, rfl, by decide⟩

theorem foldl_append_singleton {α : Type} (l : List α) : ∀ acc : List α,
    l.foldl (fun acc a => acc ++ [a]) acc = acc ++ l := by
  induction l with
  | nil => intro acc; simp
  | cons a l ih =>
    intro acc
    rw [List.foldl_cons, ih]
    simp

/-- C9: converting a `merkle.Proof` to its hex representation and back is
the identity, for every valid proof including the zero-sibling case. -/
theorem hexMerkleProof_roundtrip (p : MerkleProof) (h1 : 1 ≤ p.Total)
    (h2 : 0 ≤ p.Index) (h3 : p.Index < p.Total) :
    ToMerkleProof (NewHexMerkleProof p) = p := by
  obtain ⟨T, I, L, A⟩ := p
  unfold ToMerkleProof NewHexMerkleProof
  simp [foldl_append_singleton]

/-- C9 witness: the single-leaf proof with no siblings round-trips. -/
theorem hexMerkleProof_roundtrip_witness :
    ToMerkleProof (NewHexMerkleProof ⟨1, 0, [3], []⟩) = ⟨1, 0, [3], []⟩ :=
  hexMerkleProof_roundtrip ⟨1, 0, [3], []⟩ (by decide) (by decide) (by decide)

/-- C8: the inclusion-proof request validator propagates range-validation
errors unchanged, and on a valid range fails `heightOutsideRange` exactly
when the height is outside the end-exclusive interval `[start, e)`. -/
theorem validateInclusionProofRequest_spec (env : Environment) (height start e : Nat) :
    (∀ err, validateBridgeCommitmentRange env start e = .error err →
      validateBridgeCommitmentInclusionProofRequest env height start e = .error err) ∧
    (validateBridgeCommitmentRange env start e = .ok () →
      ((validateBridgeCommitmentInclusionProofRequest env height start e =
          .error (.heightOutsideRange height start e)) ↔ (height < start ∨ e ≤ height)) ∧
      ((validateBridgeCommitmentInclusionProofRequest env height start e = .ok ()) ↔
        (start ≤ height ∧ height < e))) := by
  constructor
  · intro err herr
    unfold validateBridgeCommitmentInclusionProofRequest
    rw [herr]
    rfl
  · intro hok
    have hred : validateBridgeCommitmentInclusionProofRequest env height start e =
        if height < start ∨ height ≥ e then .error (.heightOutsideRange height start e)
        else .ok () := by
      unfold validateBridgeCommitmentInclusionProofRequest
      rw [hok]
      rfl
    rw [hred]
    split_ifs with hc
    · constructor
      · simp
        omega
      · simp
        omega
    · constructor
      · simp
        omega
      · simp
        omega

/-- C8 witness: with chain height 1000 and range `[1, 100)`, height 99 is
accepted and height 150 is rejected as outside the range. -/
theorem validateInclusionProofRequest_spec_witness :
    validateBridgeCommitmentInclusionProofRequest
      { blockStoreHeight := 1000, loadBlock := fun _ => none,
        loadFinalizeBlockResponse := fun _ => .error .storeFailure } 99 1 100 = .ok () ∧
    validateBridgeCommitmentInclusionProofRequest
      { blockStoreHeight := 1000, loadBlock := fun _ => none,
        loadFinalizeBlockResponse := fun _ => .error .storeFailure } 150 1 100 =
      .error (.heightOutsideRange 150 1 100) := by
  constructor
  · exact ((validateInclusionProofRequest_spec _ 99 1 100).2 (by decide)).2.mpr
      ⟨by decide, by decide⟩
  · exact ((validateInclusionProofRequest_spec _ 150 1 100).2 (by decide)).1.mpr
      (Or.inr (by decide))

theorem exceptBind_ok {ε α β : Type} (a : α) (f : α → Except ε β) :
    (Except.ok a >>= f : Except ε β) = f a := rfl

theorem exceptBind_err {ε α β : Type} (er : ε) (f : α → Except ε β) :
    (Except.error er >>= f : Except ε β) = .error er := rfl

theorem proofsFromByteSlices_length (H : List Nat → List Nat) (items : List (List Nat)) :
    (proofsFromByteSlices H items).length = items.length := by
  simp [proofsFromByteSlices]

theorem sliceIndex_ok {α : Type} (l : List α) (i : Int) (h0 : 0 ≤ i)
    (h1 : i.toNat < l.length) : sliceIndex l i = .ok (l.get ⟨i.toNat, h1⟩) := by
  unfold sliceIndex
  rw [dif_pos ⟨h0, h1⟩]

theorem sliceIndex_neg {α : Type} (l : List α) (i : Int) (h : i < 0) :
    sliceIndex l i = .error .indexPanic := by
  unfold sliceIndex
  rw [dif_neg (by omega)]

theorem bcip_unfold (H : List Nat → List Nat) (env : Environment)
    (height txIndex : Int) (start e : Nat)
    (leaves : List BridgeCommitmentLeaf) (enc txs : List (List Nat))
    (leaf0 : BridgeCommitmentLeaf) (bcp : MerkleProof)
    (h1 : validateBridgeCommitmentInclusionProofRequest env (u64OfInt height) start e = .ok ())
    (h2 : fetchBridgeCommitmentLeaves env start e = .ok leaves)
    (h3 : encodeBridgeCommitment leaves = .ok enc)
    (h4 : sliceIndex leaves 0 = .ok leaf0)
    (h5 : sliceIndex (proofsFromByteSlices H enc) (height - (leaf0.Height : Int)) = .ok bcp)
    (h6 : env.loadFinalizeBlockResponse (height - 1) = .ok txs) :
    BridgeCommitmentInclusionProof H env height txIndex start e =
      if txs.length = 0 ∧ txIndex = 0 then
        .ok { BridgeCommitmentMerkleProof := bcp, LastResultsMerkleProof := none,
              bridgeCommitmentLeaf := none, TxResultMarshalled := none }
      else if txIndex ≥ (txs.length : Int) then .error (.txIndexOutOfRange txIndex)
      else
        sliceIndex (proofsFromByteSlices H txs) txIndex >>= fun txMerkleProof =>
          pure { BridgeCommitmentMerkleProof := bcp,
                 LastResultsMerkleProof := some txMerkleProof,
                 bridgeCommitmentLeaf := none, TxResultMarshalled := none } := by
  unfold BridgeCommitmentInclusionProof
  simp only [h1, h2, h3, h4, h5, h6, exceptBind_ok]
  rfl

/-- C4: after validation and the bridge-level proof, an empty prior result
set with `txIndex = 0` yields success carrying only the bridge-level proof,
and otherwise any `txIndex ≥ len(resultSet)` fails `txIndexOutOfRange`. -/
theorem bcip_empty_and_outofrange_branches (H : List Nat → List Nat) (env : Environment)
    (height txIndex : Int) (start e : Nat)
    (leaves : List BridgeCommitmentLeaf) (enc txs : List (List Nat))
    (leaf0 : BridgeCommitmentLeaf) (bcp : MerkleProof)
    (h1 : validateBridgeCommitmentInclusionProofRequest env (u64OfInt height) start e = .ok ())
    (h2 : fetchBridgeCommitmentLeaves env start e = .ok leaves)
    (h3 : encodeBridgeCommitment leaves = .ok enc)
    (h4 : sliceIndex leaves 0 = .ok leaf0)
    (h5 : sliceIndex (proofsFromByteSlices H enc) (height - (leaf0.Height : Int)) = .ok bcp)
    (h6 : env.loadFinalizeBlockResponse (height - 1) = .ok txs) :
    (txs = [] → txIndex = 0 →
      BridgeCommitmentInclusionProof H env height txIndex start e =
        .ok { BridgeCommitmentMerkleProof := bcp, LastResultsMerkleProof := none,
              bridgeCommitmentLeaf := none, TxResultMarshalled := none }) ∧
    (¬(txs = [] ∧ txIndex = 0) → (txs.length : Int) ≤ txIndex →
      BridgeCommitmentInclusionProof H env height txIndex start e =
        .error (.txIndexOutOfRange txIndex)) := by
  rw [bcip_unfold H env height txIndex start e leaves enc txs leaf0 bcp h1 h2 h3 h4 h5 h6]
  constructor
  · intro ht hi
    subst ht
    subst hi
    rfl
  · intro hne hge
    have hne2 : ¬(txs.length = 0 ∧ txIndex = 0) := by
      intro ⟨ha, hb⟩
      exact hne ⟨List.length_eq_zero.mp ha, hb⟩
    rw [if_neg hne2, if_pos (show txIndex ≥ (txs.length : Int) from hge)]

/-- C4 witness: block 11 whose prior block has no transaction results:
`txIndex = 0` returns only the bridge-level proof, `txIndex = 1` fails
`txIndexOutOfRange`. -/
theorem bcip_empty_and_outofrange_branches_witness :
    BridgeCommitmentInclusionProof (fun _ => [7])
      { blockStoreHeight := 20,
        loadBlock := fun h => if h = 11 then some { lastResultsHash := [5] } else none,
        loadFinalizeBlockResponse := fun h => if h = 10 then .ok [] else .error .storeFailure }
      11 0 11 12 =
      .ok { BridgeCommitmentMerkleProof := ⟨1, 0, [7], []⟩, LastResultsMerkleProof := none,
            bridgeCommitmentLeaf := none, TxResultMarshalled := none } ∧
    BridgeCommitmentInclusionProof (fun _ => [7])
      { blockStoreHeight := 20,
        loadBlock := fun h => if h = 11 then some { lastResultsHash := [5] } else none,
        loadFinalizeBlockResponse := fun h => if h = 10 then .ok [] else .error .storeFailure }
      11 1 11 12 =
      .error (.txIndexOutOfRange 1) := by
  constructor
  · refine (bcip_empty_and_outofrange_branches (fun _ => [7]) _ 11 0 11 12
      [⟨11, [5]⟩] [(List.replicate 31 0 ++ [11]) ++ [5]] [] ⟨11, [5]⟩ ⟨1, 0, [7], []⟩
      ?_ ?_ ?_ ?_ ?_ ?_).1 rfl rfl <;> rfl
  · refine (bcip_empty_and_outofrange_branches (fun _ => [7]) _ 11 1 11 12
      [⟨11, [5]⟩] [(List.replicate 31 0 ++ [11]) ++ [5]] [] ⟨11, [5]⟩ ⟨1, 0, [7], []⟩
      ?_ ?_ ?_ ?_ ?_ ?_).2 (by decide) (by decide) <;> rfl

/-- C10: a negative `txIndex` on a block with a non-empty result set is not
rejected by the `txIndex ≥ len` sanity check; it reaches the results-proof
computation, whose out-of-range indexing aborts the request (a Go panic,
modelled as `indexPanic`), and in particular no `txIndexOutOfRange` error is
returned. -/
theorem bcip_negative_txIndex_not_rejected (H : List Nat → List Nat) (env : Environment)
    (height txIndex : Int) (start e : Nat)
    (leaves : List BridgeCommitmentLeaf) (enc txs : List (List Nat))
    (leaf0 : BridgeCommitmentLeaf) (bcp : MerkleProof)
    (h1 : validateBridgeCommitmentInclusionProofRequest env (u64OfInt height) start e = .ok ())
    (h2 : fetchBridgeCommitmentLeaves env start e = .ok leaves)
    (h3 : encodeBridgeCommitment leaves = .ok enc)
    (h4 : sliceIndex leaves 0 = .ok leaf0)
    (h5 : sliceIndex (proofsFromByteSlices H enc) (height - (leaf0.Height : Int)) = .ok bcp)
    (h6 : env.loadFinalizeBlockResponse (height - 1) = .ok txs)
    (hneg : txIndex < 0) (hne : txs ≠ []) :
    BridgeCommitmentInclusionProof H env height txIndex start e = .error .indexPanic ∧
    ∀ i : Int, BridgeCommitmentInclusionProof H env height txIndex start e ≠
      .error (.txIndexOutOfRange i) := by
  rw [bcip_unfold H env height txIndex start e leaves enc txs leaf0 bcp h1 h2 h3 h4 h5 h6]
  have hlen : 0 < txs.length := List.length_pos.mpr hne
  rw [if_neg (by intro hand; omega), if_neg (by omega), sliceIndex_neg _ _ hneg]
  exact ⟨rfl, fun i => by simp⟩

/-- C10 witness: `txIndex = -1` on a block whose prior result set has one
element ends in the modelled indexing panic, not in `txIndexOutOfRange`. -/
theorem bcip_negative_txIndex_not_rejected_witness :
    BridgeCommitmentInclusionProof (fun _ => [7])
      { blockStoreHeight := 20,
        loadBlock := fun h => if h = 11 then some { lastResultsHash := [5] } else none,
        loadFinalizeBlockResponse := fun h =>
          if h = 10 then .ok [[1, 2, 3]] else .error .storeFailure }
      11 (-1) 11 12 = .error .indexPanic := by
  refine (bcip_negative_txIndex_not_rejected (fun _ => [7]) _ 11 (-1) 11 12
    [⟨11, [5]⟩] [(List.replicate 31 0 ++ [11]) ++ [5]] [[1, 2, 3]] ⟨11, [5]⟩ ⟨1, 0, [7], []⟩
    ?_ ?_ ?_ ?_ ?_ ?_ (by decide) (by decide)).1 <;> rfl

/-- C5 at a failing input: block 11's prior block has one transaction, the
call succeeds, yet the returned `ResultBridgeCommitmentInclusionProof`
leaves `BridgeCommitmentLeaf` and `TxResultMarshalled` at their zero values
(here `none`): the commitment leaf and the raw deterministic transaction
encoding promised by the response type's documentation are never
populated by the source's struct literal. -/
theorem bcip_fields_never_populated :
    BridgeCommitmentInclusionProof (fun _ => [7])
      { blockStoreHeight := 20,
        loadBlock := fun h => if h = 11 then some { lastResultsHash := [5] } else none,
        loadFinalizeBlockResponse := fun h =>
          if h = 10 then .ok [[1, 2, 3]] else .error .storeFailure }
      11 0 11 12 =
      .ok { BridgeCommitmentMerkleProof := ⟨1, 0, [7], []⟩,
            LastResultsMerkleProof := some ⟨1, 0, [7], []⟩,
            bridgeCommitmentLeaf := none,
            TxResultMarshalled := none } := rfl

theorem u64OfInt_eq (i : Int) (h0 : 0 ≤ i) (h1 : i < 2 ^ 63) : u64OfInt i = i.toNat := by
  unfold u64OfInt
  rw [Int.emod_eq_of_lt h0 (by
    have h2 : ((2 : Int) ^ 63 : Int) ≤ (2 : Int) ^ 64 := by norm_num
    omega)]

theorem validateRange_ok_inv (env : Environment) (s e : Nat)
    (h : validateBridgeCommitmentRange env s e = .ok ()) :
    s ≠ 0 ∧ s < e ∧ e - s ≤ 1000 := by
  simp only [validateBridgeCommitmentRange, bridgeCommitmentBlocksLimit] at h
  split_ifs at h with h1 h2 h3 h4 h5
  all_goals
    first
      | exact Except.noConfusion h
      | exact ⟨by omega, by omega, by omega⟩

theorem validateIncl_inv (env : Environment) (hN s e : Nat)
    (hok : validateBridgeCommitmentInclusionProofRequest env hN s e = .ok ()) :
    validateBridgeCommitmentRange env s e = .ok () ∧ s ≤ hN ∧ hN < e := by
  unfold validateBridgeCommitmentInclusionProofRequest at hok
  cases hv : validateBridgeCommitmentRange env s e with
  | error err =>
    rw [hv, exceptBind_err] at hok
    exact Except.noConfusion hok
  | ok u =>
    cases u
    rw [hv, exceptBind_ok] at hok
    by_cases hc : hN < s ∨ hN ≥ e
    · rw [if_pos hc] at hok
      exact Except.noConfusion hok
    · exact ⟨rfl, by omega, by omega⟩

theorem encode_ok_length : ∀ (leaves : List BridgeCommitmentLeaf) (enc : List (List Nat)),
    encodeBridgeCommitment leaves = .ok enc → enc.length = leaves.length := by
  intro leaves
  induction leaves with
  | nil =>
    intro enc h
    cases h
    rfl
  | cons leaf rest ih =>
    intro enc h
    unfold encodeBridgeCommitment at h
    cases hp : to32PaddedHexBytes leaf.Height with
    | error err => rw [hp, exceptBind_err] at h; exact Except.noConfusion h
    | ok p =>
      rw [hp, exceptBind_ok] at h
      cases hr : encodeBridgeCommitment rest with
      | error err => rw [hr, exceptBind_err] at h; exact Except.noConfusion h
      | ok r =>
        rw [hr, exceptBind_ok] at h
        cases h
        simp [ih r hr]

/-- C6: for a validated request whose blocks are all available, the leaves
are returned for heights `start, start+1, …` in ascending order (so
`leaves[0].Height = start`), and on every success path — the empty-result-set
path with `txIndex = 0` as well as the results-proof path — the result
carries as its bridge-level proof exactly the proof at position
`height - start` of the proof list over the encoded leaves. -/
theorem bcip_bridgeProof_position (H : List Nat → List Nat) (env : Environment)
    (height txIndex : Int) (start e : Nat)
    (leaves : List BridgeCommitmentLeaf) (enc txs : List (List Nat))
    (hh0 : 0 ≤ height) (hh1 : height < 2 ^ 63)
    (h1 : validateBridgeCommitmentInclusionProofRequest env (u64OfInt height) start e = .ok ())
    (h2 : fetchBridgeCommitmentLeaves env start e = .ok leaves)
    (h3 : encodeBridgeCommitment leaves = .ok enc)
    (h6 : env.loadFinalizeBlockResponse (height - 1) = .ok txs)
    (hsucc : txs = [] ∧ txIndex = 0 ∨ 0 ≤ txIndex ∧ txIndex.toNat < txs.length) :
    leaves.length = e - start ∧
    (∀ i (hi : i < leaves.length), (leaves.get ⟨i, hi⟩).Height = start + i) ∧
    ∃ r, BridgeCommitmentInclusionProof H env height txIndex start e = .ok r ∧
      (proofsFromByteSlices H enc)[height.toNat - start]? =
        some r.BridgeCommitmentMerkleProof := by
  obtain ⟨hvr, hsle, hlth⟩ := validateIncl_inv env _ start e h1
  rw [u64OfInt_eq height hh0 hh1] at hsle hlth
  obtain ⟨hs0, hse, hrange⟩ := validateRange_ok_inv env start e hvr
  obtain ⟨hlen, hget⟩ := fetchLeavesAux_ok env (e - start) start leaves h2
  have hpos : 0 < leaves.length := by omega
  have henclen : enc.length = leaves.length := encode_ok_length leaves enc h3
  have hleaf0 : sliceIndex leaves 0 = .ok (leaves.get ⟨0, hpos⟩) := by
    have hk := sliceIndex_ok leaves 0 (by omega) (by simpa using hpos)
    simpa using hk
  have hheight0 : (leaves.get ⟨0, hpos⟩).Height = start := by
    have hk := hget 0 hpos
    omega
  have hint : (0 : Int) ≤ height - ((leaves.get ⟨0, hpos⟩).Height : Int) := by
    rw [hheight0]
    omega
  have hproofslen : (proofsFromByteSlices H enc).length = leaves.length := by
    rw [proofsFromByteSlices_length, henclen]
  have hidx : (height - ((leaves.get ⟨0, hpos⟩).Height : Int)).toNat <
      (proofsFromByteSlices H enc).length := by
    rw [hheight0, hproofslen]
    omega
  have hbcp := sliceIndex_ok (proofsFromByteSlices H enc) _ hint hidx
  have hfinal := bcip_unfold H env height txIndex start e leaves enc txs _ _
    h1 h2 h3 hleaf0 hbcp h6
  have hX : (height - ((leaves.get ⟨0, hpos⟩).Height : Int)).toNat =
      height.toNat - start := by
    rw [hheight0]
    omega
  have hgoal : (proofsFromByteSlices H enc)[(height -
      ((leaves.get ⟨0, hpos⟩).Height : Int)).toNat]? =
      some ((proofsFromByteSlices H enc).get
        ⟨(height - ((leaves.get ⟨0, hpos⟩).Height : Int)).toNat, hidx⟩) := by
    simp [List.getElem?_eq_getElem hidx]
  have hconc : (proofsFromByteSlices H enc)[height.toNat - start]? =
      some ((proofsFromByteSlices H enc).get
        ⟨(height - ((leaves.get ⟨0, hpos⟩).Height : Int)).toNat, hidx⟩) := by
    rw [← hgoal, hX]
  refine ⟨hlen, hget, ?_⟩
  rw [hfinal]
  rcases hsucc with ⟨ht, hi⟩ | ⟨h7, h8⟩
  · rw [if_pos ⟨by simp [ht], hi⟩]
    exact ⟨_, rfl, hconc⟩
  · rw [if_neg (by intro hand; omega), if_neg (by omega),
      sliceIndex_ok (proofsFromByteSlices H txs) txIndex h7
        (by rwa [proofsFromByteSlices_length])]
    exact ⟨_, rfl, hconc⟩

/-- C6 witness: range `[11, 13)`, height 12, both success paths: with an
empty prior result set and `txIndex = 0`, and with a one-element result set,
the bridge-level proof of the successful result is the proof at position
`12 - 11 = 1` over the two encoded leaves. -/
theorem bcip_bridgeProof_position_witness :
    (∃ r, BridgeCommitmentInclusionProof (fun _ => [7])
      { blockStoreHeight := 20,
        loadBlock := fun h =>
          if h = 11 then some { lastResultsHash := [3] }
          else if h = 12 then some { lastResultsHash := [4] } else none,
        loadFinalizeBlockResponse := fun h =>
          if h = 11 then .ok [] else .error .storeFailure }
      12 0 11 13 = .ok r ∧
    (proofsFromByteSlices (fun _ => [7])
      [(List.replicate 31 0 ++ [11]) ++ [3], (List.replicate 31 0 ++ [12]) ++ [4]])[1]? =
      some r.BridgeCommitmentMerkleProof) ∧
    ∃ r, BridgeCommitmentInclusionProof (fun _ => [7])
      { blockStoreHeight := 20,
        loadBlock := fun h =>
          if h = 11 then some { lastResultsHash := [3] }
          else if h = 12 then some { lastResultsHash := [4] } else none,
        loadFinalizeBlockResponse := fun h =>
          if h = 11 then .ok [[1]] else .error .storeFailure }
      12 0 11 13 = .ok r ∧
    (proofsFromByteSlices (fun _ => [7])
      [(List.replicate 31 0 ++ [11]) ++ [3], (List.replicate 31 0 ++ [12]) ++ [4]])[1]? =
      some r.BridgeCommitmentMerkleProof := by
  constructor
  · have h := bcip_bridgeProof_position (fun _ => [7])
      { blockStoreHeight := 20,
        loadBlock := fun h =>
          if h = 11 then some { lastResultsHash := [3] }
          else if h = 12 then some { lastResultsHash := [4] } else none,
        loadFinalizeBlockResponse := fun h =>
          if h = 11 then .ok [] else .error .storeFailure }
      12 0 11 13
      [⟨11, [3]⟩, ⟨12, [4]⟩]
      [(List.replicate 31 0 ++ [11]) ++ [3], (List.replicate 31 0 ++ [12]) ++ [4]]
      [] (by decide) (by decide) rfl rfl rfl rfl (Or.inl ⟨rfl, rfl⟩)
    simpa using h.2.2
  · have h := bcip_bridgeProof_position (fun _ => [7])
      { blockStoreHeight := 20,
        loadBlock := fun h =>
          if h = 11 then some { lastResultsHash := [3] }
          else if h = 12 then some { lastResultsHash := [4] } else none,
        loadFinalizeBlockResponse := fun h =>
          if h = 11 then .ok [[1]] else .error .storeFailure }
      12 0 11 13
      [⟨11, [3]⟩, ⟨12, [4]⟩]
      [(List.replicate 31 0 ++ [11]) ++ [3], (List.replicate 31 0 ++ [12]) ++ [4]]
      [[1]] (by decide) (by decide) rfl rfl rfl rfl (Or.inr ⟨by decide, by decide⟩)
    simpa using h.2.2
